import Mathlib

/-!
Shallow embedding of `src/include/appbase/execution_priority_queue.hpp`
(namespace `appbase` of the mixbytes/appbase repository).

The header defines a priority-ordered task scheduler:

* `execution_priority_queue` holds handlers stamped with `(priority_, order_)`,
  where `order_` is a `size_t` counter initialised to
  `std::numeric_limits<size_t>::max()` and pre-decremented (`--order_`) on each
  `add`, so unsigned arithmetic wraps modulo `2^w` for the word width `w`.
* handlers are ordered by `operator<` comparing `std::tie(priority_, order_)`
  lexicographically; `std::priority_queue` pops the maximum.
* `execute_all` pops and executes until empty; `execute_highest` pops and
  executes at most one handler and reports whether any handler remains.
* the nested `executor` class forwards `dispatch` / `post` / `defer` to `add`
  and treats `on_work_started` / `on_work_finished` as no-ops.

Modelling decisions, all mirroring the source:

* `size_t` is modelled as `Nat` with explicit `% 2^w` arithmetic; the word
  width `w` is a parameter (64 on the original platform).
* The opaque `Function` callables are modelled by `Callback`: a label (its
  identity), the list of `(priority, callback)` enqueues it performs on the
  owning queue when invoked, and whether it then raises an exception.
  Invoking a callback therefore applies its enqueues to the queue state and
  then either returns normally or throws.
* `std::priority_queue` is modelled as the list of contained handlers
  together with extraction of a maximal element (`extract_max`); under the
  distinct-key conditions of the claims the maximum is unique, so the choice
  among equal elements (unspecified in C++) never matters.
* Execution traces (the list of executed handlers, in order) are returned by
  the drain operations so that ordering claims can be stated; an escaping
  C++ exception is modelled by an `Except.error` / a `true` "threw" flag
  carrying the queue state at the moment the exception propagates.
-/

/-- Model of the opaque callables stored in the queue: a `label` identifying
the callback, the enqueues `subs` it performs on the owning queue when it is
invoked, and whether it raises an exception after performing them. -/
inductive Callback : Type where
  | mk (label : Nat) (subs : List (Int × Callback)) (throws : Bool)

/-- Label of a callback. -/
def Callback.label : Callback → Nat
  | .mk l _ _ => l

/-- Enqueues a callback performs when invoked. -/
def Callback.subs : Callback → List (Int × Callback)
  | .mk _ s _ => s

/-- Whether the callback raises an exception when invoked. -/
def Callback.throws : Callback → Bool
  | .mk _ _ t => t

/-- Model of `queued_handler<Function>` (including its `queued_handler_base`
part): the stored `priority_`, the `order_` stamp taken from the queue's
counter at `add` time, and the stored callable. -/
structure queued_handler : Type where
  priority_ : Int
  order_ : Nat
  function_ : Callback

/-- The friend `operator<` on `queued_handler_base`:
`std::tie(a.priority_, a.order_) < std::tie(b.priority_, b.order_)`,
lexicographic comparison. -/
def queued_handler.lt (a b : queued_handler) : Prop :=
  a.priority_ < b.priority_ ∨ (a.priority_ = b.priority_ ∧ a.order_ < b.order_)

instance (a b : queued_handler) : Decidable (queued_handler.lt a b) := by
  unfold queued_handler.lt; infer_instance

/-- The ordering key `(priority_, order_)` of a handler. -/
def queued_handler.key (a : queued_handler) : Int × Nat := (a.priority_, a.order_)

/-- State of `execution_priority_queue`: the multiset of pending handlers held
by the member `std::priority_queue` (as a list), and the `order_` counter. -/
structure execution_priority_queue : Type where
  handlers_ : List queued_handler
  order_ : Nat

/-- A freshly constructed queue: no handlers, counter at
`std::numeric_limits<size_t>::max() = 2^w - 1`. -/
def execution_priority_queue.fresh (w : Nat) : execution_priority_queue :=
  ⟨[], 2 ^ w - 1⟩

/-- `add(priority, function)`: pre-decrements the counter (`--order_`, unsigned
wrap modulo `2^w`) and pushes a handler stamped with the new counter value. -/
def execution_priority_queue.add (w : Nat) (q : execution_priority_queue)
    (priority : Int) (function : Callback) : execution_priority_queue :=
  let o := (q.order_ + (2 ^ w - 1)) % 2 ^ w
  ⟨q.handlers_ ++ [⟨priority, o, function⟩], o⟩

/-- Extraction of a maximal element from the handler list, modelling
`handlers_.top(); handlers_.pop()` on the `std::priority_queue` ordered by
`ptr_less` (dereferenced `operator<`). Among equal elements it keeps the
earlier one; the claims only use states whose keys are pairwise distinct,
where the maximum is unique. -/
def extract_max : List queued_handler → Option (queued_handler × List queued_handler)
  | [] => none
  | h :: t =>
    match extract_max t with
    | none => some (h, [])
    | some (m, rest) => if queued_handler.lt h m then some (m, h :: rest) else some (h, t)

/-- `get_top_handler()`: returns `boost::none` on an empty queue, otherwise
removes and returns the top (maximal) handler. -/
def execution_priority_queue.get_top_handler (q : execution_priority_queue) :
    Option (queued_handler × execution_priority_queue) :=
  match extract_max q.handlers_ with
  | none => none
  | some (m, rest) => some (m, ⟨rest, q.order_⟩)

/-- Effect of invoking a callback on the owning queue: it performs its
enqueues, in order, through `add`. -/
def run_enqueues (w : Nat) (q : execution_priority_queue)
    (l : List (Int × Callback)) : execution_priority_queue :=
  l.foldl (fun st pc => st.add w pc.1 pc.2) q

mutual

/-- Structural weight of a callback: one more than the total weight of the
callbacks it enqueues. -/
def Callback.weight : Callback → Nat
  | .mk _ subs _ => 1 + subs_weight subs

/-- Total weight of the callbacks in an enqueue list. -/
def subs_weight : List (Int × Callback) → Nat
  | [] => 0
  | pc :: r => pc.2.weight + subs_weight r

end

/-- Weight of a queue state: total weight of the stored callables. Each
pop-and-execute step strictly decreases it (the popped callback's enqueues
are proper components of the popped callable), so `execute_all` terminates. -/
def queue_weight (q : execution_priority_queue) : Nat :=
  (q.handlers_.map (fun h => h.function_.weight)).sum

theorem queued_handler.lt_irrefl (a : queued_handler) : ¬ queued_handler.lt a a := by
  rcases a with ⟨p, o, f⟩
  simp [queued_handler.lt]

theorem queued_handler.lt_asymm {a b : queued_handler}
    (h : queued_handler.lt a b) : ¬ queued_handler.lt b a := by
  rcases a with ⟨pa, oa, fa⟩
  rcases b with ⟨pb, ob, fb⟩
  simp only [queued_handler.lt] at *
  omega

theorem queued_handler.not_lt_trans {a b c : queued_handler}
    (hab : ¬ queued_handler.lt a b) (hbc : ¬ queued_handler.lt b c) :
    ¬ queued_handler.lt a c := by
  rcases a with ⟨pa, oa, fa⟩
  rcases b with ⟨pb, ob, fb⟩
  rcases c with ⟨pc, oc, fc⟩
  simp only [queued_handler.lt] at *
  omega

theorem queued_handler.lt_of_not_lt_of_key_ne {a b : queued_handler}
    (h : ¬ queued_handler.lt a b) (hk : a.key ≠ b.key) : queued_handler.lt b a := by
  rcases lt_trichotomy a.priority_ b.priority_ with h1 | h1 | h1
  · exact absurd (Or.inl h1) h
  · rcases Nat.lt_trichotomy a.order_ b.order_ with h2 | h2 | h2
    · exact absurd (Or.inr ⟨h1, h2⟩) h
    · exact absurd (show a.key = b.key by
        simp [queued_handler.key, h1, h2]) hk
    · exact Or.inr ⟨h1.symm, h2⟩
  · exact Or.inl h1

theorem extract_max_cons_none {t : List queued_handler} (h : queued_handler)
    (ht : extract_max t = none) : extract_max (h :: t) = some (h, []) := by
  simp only [extract_max, ht]

theorem extract_max_cons_some {t : List queued_handler} (h : queued_handler)
    {m : queued_handler} {rest : List queued_handler}
    (ht : extract_max t = some (m, rest)) :
    extract_max (h :: t) =
      if queued_handler.lt h m then some (m, h :: rest) else some (h, t) := by
  simp only [extract_max, ht]

theorem extract_max_nil_iff {l : List queued_handler} :
    extract_max l = none ↔ l = [] := by
  cases l with
  | nil => simp [extract_max]
  | cons h t =>
    constructor
    · intro hc
      cases ht : extract_max t with
      | none => rw [extract_max_cons_none h ht] at hc; cases hc
      | some p =>
        rw [extract_max_cons_some h (by rw [ht])] at hc
        by_cases hab : queued_handler.lt h p.1 <;> simp [hab] at hc
    · intro hc; cases hc

theorem extract_max_perm : ∀ {l : List queued_handler} {m : queued_handler}
    {rest : List queued_handler}, extract_max l = some (m, rest) →
    l.Perm (m :: rest) := by
  intro l
  induction l with
  | nil => intro m rest h; simp [extract_max] at h
  | cons h t ih =>
    intro m rest he
    cases ht : extract_max t with
    | none =>
      rw [extract_max_cons_none h ht] at he
      simp only [Option.some.injEq, Prod.mk.injEq] at he
      rcases he with ⟨rfl, rfl⟩
      rw [extract_max_nil_iff.mp ht]
    | some p =>
      have hperm : t.Perm (p.1 :: p.2) := ih (by rw [ht])
      rw [extract_max_cons_some h (by rw [ht])] at he
      by_cases hlt : queued_handler.lt h p.1
      · rw [if_pos hlt] at he
        simp only [Option.some.injEq, Prod.mk.injEq] at he
        rcases he with ⟨rfl, rfl⟩
        exact (hperm.cons h).trans (List.Perm.swap p.1 h p.2)
      · rw [if_neg hlt] at he
        simp only [Option.some.injEq, Prod.mk.injEq] at he
        rcases he with ⟨rfl, rfl⟩
        exact List.Perm.refl _

theorem extract_max_is_max : ∀ {l : List queued_handler} {m : queued_handler}
    {rest : List queued_handler}, extract_max l = some (m, rest) →
    ∀ x ∈ l, ¬ queued_handler.lt m x := by
  intro l
  induction l with
  | nil => intro m rest h; simp [extract_max] at h
  | cons h t ih =>
    intro m rest he
    cases ht : extract_max t with
    | none =>
      rw [extract_max_cons_none h ht] at he
      simp only [Option.some.injEq, Prod.mk.injEq] at he
      rcases he with ⟨rfl, rfl⟩
      rw [extract_max_nil_iff.mp ht]
      intro x hx
      simp only [List.mem_singleton] at hx
      subst hx
      exact queued_handler.lt_irrefl _
    | some p =>
      have hmax : ∀ x ∈ t, ¬ queued_handler.lt p.1 x := ih (by rw [ht])
      rw [extract_max_cons_some h (by rw [ht])] at he
      by_cases hlt : queued_handler.lt h p.1
      · rw [if_pos hlt] at he
        simp only [Option.some.injEq, Prod.mk.injEq] at he
        rcases he with ⟨rfl, rfl⟩
        intro x hx
        rcases List.mem_cons.mp hx with rfl | hxt
        · exact queued_handler.lt_asymm hlt
        · exact hmax x hxt
      · rw [if_neg hlt] at he
        simp only [Option.some.injEq, Prod.mk.injEq] at he
        rcases he with ⟨rfl, rfl⟩
        intro x hx
        rcases List.mem_cons.mp hx with rfl | hxt
        · exact queued_handler.lt_irrefl _
        · exact queued_handler.not_lt_trans hlt (hmax x hxt)

/-- `execute_highest()`: pops the top handler if one exists and executes it
(performing its enqueues; an exception propagates as `Except.error` carrying
the queue state), then returns `!handlers_.empty()` — whether any handler
remains pending after the call — together with the executed handlers. -/
def execution_priority_queue.execute_highest (w : Nat)
    (q : execution_priority_queue) :
    Except execution_priority_queue
      (execution_priority_queue × Bool × List queued_handler) :=
  match q.get_top_handler with
  | none => .ok (q, !q.handlers_.isEmpty, [])
  | some (m, q1) =>
    let q2 := run_enqueues w q1 m.function_.subs
    if m.function_.throws then .error q2
    else .ok (q2, !q2.handlers_.isEmpty, [m])

theorem get_top_handler_spec {q : execution_priority_queue}
    {m : queued_handler} {q1 : execution_priority_queue}
    (h : q.get_top_handler = some (m, q1)) :
    extract_max q.handlers_ = some (m, q1.handlers_) ∧ q1.order_ = q.order_ := by
  unfold execution_priority_queue.get_top_handler at h
  cases he : extract_max q.handlers_ with
  | none => rw [he] at h; cases h
  | some p =>
    rw [he] at h
    simp only [Option.some.injEq, Prod.mk.injEq] at h
    rcases h with ⟨rfl, rfl⟩
    exact ⟨rfl, rfl⟩

theorem subs_weight_lt (c : Callback) : subs_weight c.subs < c.weight := by
  cases c with
  | mk l s t => simp [Callback.subs, Callback.weight]

theorem subs_weight_eq_sum (l : List (Int × Callback)) :
    subs_weight l = (l.map (fun pc => pc.2.weight)).sum := by
  induction l with
  | nil => simp [subs_weight]
  | cons pc r ih => simp [subs_weight, ih]

theorem queue_weight_add (w : Nat) (q : execution_priority_queue)
    (p : Int) (c : Callback) :
    queue_weight (q.add w p c) = queue_weight q + c.weight := by
  simp [queue_weight, execution_priority_queue.add]

theorem queue_weight_run_enqueues (w : Nat) :
    ∀ (l : List (Int × Callback)) (q : execution_priority_queue),
    queue_weight (run_enqueues w q l) = queue_weight q + subs_weight l := by
  intro l
  induction l with
  | nil => intro q; simp [run_enqueues, subs_weight]
  | cons pc r ih =>
    intro q
    show queue_weight (run_enqueues w (q.add w pc.1 pc.2) r) = _
    rw [ih, queue_weight_add]
    simp [subs_weight]
    omega

theorem queue_weight_extract {q : execution_priority_queue}
    {m : queued_handler} {q1 : execution_priority_queue}
    (h : q.get_top_handler = some (m, q1)) :
    queue_weight q = queue_weight q1 + m.function_.weight := by
  rcases get_top_handler_spec h with ⟨he, _⟩
  have hperm := extract_max_perm he
  have := (hperm.map (fun h => h.function_.weight)).sum_eq
  simp only [queue_weight]
  simp only [List.map_cons, List.sum_cons] at this
  omega

/-- `execute_all()`: repeatedly pops and executes the top handler until
`get_top_handler()` observes an empty queue. An exception raised by a
callback propagates, aborting the loop: the third component records whether
that happened, the first carries the queue state at that moment, and the
second lists the executed handlers in execution order. -/
def execution_priority_queue.execute_all (w : Nat)
    (q : execution_priority_queue) :
    execution_priority_queue × List queued_handler × Bool :=
  match hq : q.get_top_handler with
  | none => (q, [], false)
  | some (m, q1) =>
    let q2 := run_enqueues w q1 m.function_.subs
    if m.function_.throws then (q2, [m], true)
    else
      let r := execution_priority_queue.execute_all w q2
      (r.1, m :: r.2.1, r.2.2)
termination_by queue_weight q
decreasing_by
  rw [queue_weight_extract hq, queue_weight_run_enqueues]
  have := subs_weight_lt m.function_
  omega

/-- Named priority tiers from `struct priority`; plain integers, a convention
only. -/
def priority.high : Int := 100

/-- Medium named priority tier. -/
def priority.medium : Int := 50

/-- Low named priority tier. -/
def priority.low : Int := 10

/-- Model of the nested `executor` class: it stores a reference `context_` to
the owning queue and a fixed `priority_`. The reference is modelled by the
identity of the referenced queue object (its address), a `Nat`. -/
structure executor : Type where
  context_ : Nat
  priority_ : Int

/-- `executor::dispatch(f, alloc)`: delegates to `context_.add(priority_, f)`.
`q` is the state of the queue object the executor's `context_` references. -/
def executor.dispatch (w : Nat) (e : executor) (q : execution_priority_queue)
    (f : Callback) : execution_priority_queue :=
  q.add w e.priority_ f

/-- `executor::post(f, alloc)`: delegates to `context_.add(priority_, f)`. -/
def executor.post (w : Nat) (e : executor) (q : execution_priority_queue)
    (f : Callback) : execution_priority_queue :=
  q.add w e.priority_ f

/-- `executor::defer(f, alloc)`: delegates to `context_.add(priority_, f)`. -/
def executor.defer (w : Nat) (e : executor) (q : execution_priority_queue)
    (f : Callback) : execution_priority_queue :=
  q.add w e.priority_ f

/-- `executor::on_work_started()`: empty body; returns the referenced queue's
state and the executor unchanged. -/
def executor.on_work_started (e : executor) (q : execution_priority_queue) :
    execution_priority_queue × executor := (q, e)

/-- `executor::on_work_finished()`: empty body; returns the referenced queue's
state and the executor unchanged. -/
def executor.on_work_finished (e : executor) (q : execution_priority_queue) :
    execution_priority_queue × executor := (q, e)

/-- `executor::operator==`: `&context_ == &other.context_ && priority_ ==
other.priority_` — queue identity (address equality) and equal priority. -/
def executor.eq (a b : executor) : Bool :=
  a.context_ == b.context_ && a.priority_ == b.priority_

/-- `executor::operator!=`: `!operator==(other)`. -/
def executor.ne (a b : executor) : Bool :=
  !(executor.eq a b)

/-- Queue obtained from a fresh queue by `k` successive `add` calls; the
enqueued callbacks are irrelevant to the `order_` counter. -/
def enq_n (w : Nat) : Nat → execution_priority_queue
  | 0 => execution_priority_queue.fresh w
  | k + 1 => (enq_n w k).add w 0 (Callback.mk 0 [] false)

/-- Order stamp assigned by the `k`-th `add` on a fresh queue (`k ≥ 1`): the
`order_` field of the handler pushed by that `add` (the last pushed one). -/
def stamp_of_kth (w k : Nat) : Nat :=
  ((enq_n w k).handlers_.getLastD ⟨0, 0, Callback.mk 0 [] false⟩).order_

theorem enq_n_order (w : Nat) : ∀ k : Nat,
    (enq_n w k).order_ = ((2 ^ w - 1) * (k + 1)) % 2 ^ w := by
  intro k
  induction k with
  | zero =>
    show (2 ^ w - 1) = (2 ^ w - 1) * 1 % 2 ^ w
    rw [Nat.mul_one]
    exact (Nat.mod_eq_of_lt (by have := Nat.one_le_two_pow (n := w); omega)).symm
  | succ j ih =>
    show ((enq_n w j).order_ + (2 ^ w - 1)) % 2 ^ w = _
    rw [ih, Nat.mod_add_mod]
    have hstep : (2 ^ w - 1) * (j + 1) + (2 ^ w - 1) = (2 ^ w - 1) * (j + 1 + 1) := by
      ring
    rw [hstep]

theorem enq_n_order_closed (w k : Nat) (h2 : k ≤ 2 ^ w - 1) :
    (enq_n w k).order_ = 2 ^ w - 1 - k := by
  rw [enq_n_order]
  have hM : 1 ≤ 2 ^ w := Nat.one_le_two_pow
  have key : (2 ^ w - 1) * (k + 1) = (2 ^ w - 1 - k) + 2 ^ w * k := by
    zify [h2, hM]
    ring
  rw [key, Nat.add_mul_mod_self_left]
  exact Nat.mod_eq_of_lt (by omega)

theorem enq_n_order_repeat (w k : Nat) :
    (enq_n w (k + 2 ^ w)).order_ = (enq_n w k).order_ := by
  rw [enq_n_order, enq_n_order]
  have hsplit : (2 ^ w - 1) * (k + 2 ^ w + 1) =
      (2 ^ w - 1) * (k + 1) + (2 ^ w - 1) * 2 ^ w := by ring
  rw [hsplit, Nat.add_mul_mod_self_right]

theorem stamp_of_kth_eq_order (w : Nat) : ∀ k : Nat, 1 ≤ k →
    stamp_of_kth w k = (enq_n w k).order_ := by
  intro k hk
  cases k with
  | zero => omega
  | succ j =>
    show ((((enq_n w j).add w 0 (Callback.mk 0 [] false)).handlers_).getLastD
      ⟨0, 0, Callback.mk 0 [] false⟩).order_ = _
    simp only [execution_priority_queue.add]
    rw [List.getLastD_concat]
    rfl

/-- Claim C4: for every executor binding and callback, `dispatch`, `post` and
`defer` have identical effect — each enqueues the callback into the bound
queue at the binding's priority via `add` — and none invokes the callback
inline during submission: the callback ends up pending at the back of the
handler store, not executed. -/
theorem claim_C4_dispatch_post_defer_equiv (w : Nat) (e : executor)
    (q : execution_priority_queue) (f : Callback) :
    e.dispatch w q f = q.add w e.priority_ f ∧
    e.post w q f = q.add w e.priority_ f ∧
    e.defer w q f = q.add w e.priority_ f ∧
    (e.dispatch w q f).handlers_ =
      q.handlers_ ++ [⟨e.priority_, (q.order_ + (2 ^ w - 1)) % 2 ^ w, f⟩] :=
  ⟨rfl, rfl, rfl, rfl⟩

/-- Claim C7: two executor bindings compare equal under `operator==` exactly
when they reference the same queue object (identity) and carry the same
priority value; `operator!=` is the exact negation of `operator==`. -/
theorem claim_C7_executor_equality (a b : executor) :
    (executor.eq a b = true ↔
      a.context_ = b.context_ ∧ a.priority_ = b.priority_) ∧
    executor.ne a b = !(executor.eq a b) := by
  constructor
  · simp [executor.eq]
  · rfl

/-- Claim C8: `on_work_started` and `on_work_finished` are no-ops: they leave
the queue's pending handlers, the sequence counter and the binding itself
entirely unchanged. -/
theorem claim_C8_work_hooks_noop (e : executor) (q : execution_priority_queue) :
    e.on_work_started q = (q, e) ∧ e.on_work_finished q = (q, e) ∧
    (e.on_work_started q).1.handlers_ = q.handlers_ ∧
    (e.on_work_started q).1.order_ = q.order_ ∧
    (e.on_work_finished q).1.handlers_ = q.handlers_ ∧
    (e.on_work_finished q).1.order_ = q.order_ :=
  ⟨rfl, rfl, rfl, rfl, rfl, rfl⟩

/-- Counterexample to claim C5 at word width 64 (`size_t` of the original
platform): the counter value assigned at the `(2^64 - 1)`-th submission is
`0`, the one assigned at the very next (`2^64`-th) submission is `2^64 - 1`
— an increase, so assignment is not strictly decreasing at every submission
— and the value assigned at submission `2^64 + 1` collides with the value
of submission `1`; the wrap-around is silent (`add` is total, no fatal
condition is raised). -/
theorem claim_C5_counterexample :
    (enq_n 64 (2 ^ 64 - 1)).order_ = 0 ∧
    (enq_n 64 (2 ^ 64)).order_ = 2 ^ 64 - 1 ∧
    (enq_n 64 (2 ^ 64 + 1)).order_ = (enq_n 64 1).order_ := by
  refine ⟨?_, ?_, ?_⟩
  · rw [enq_n_order_closed 64 (2 ^ 64 - 1) (le_refl _)]
    omega
  · have h := enq_n_order_repeat 64 0
    rw [Nat.zero_add] at h
    rw [h]
    rfl
  · have h := enq_n_order_repeat 64 1
    rw [Nat.add_comm] at h
    exact h

/-- Claim C5 as amended: the sequence counter assigns strictly decreasing
values, starting below the maximum representable value, for the first
`2^w - 1` submissions (so sequence numbers never collide in that range); at
the `2^w`-th submission the counter silently wraps back to the maximum value
instead of raising any fatal condition. -/
theorem claim_C5_amended_wrapping_counter (w k : Nat) (hk : 1 ≤ k)
    (hk2 : k ≤ 2 ^ w - 1) :
    stamp_of_kth w k = 2 ^ w - 1 - k ∧
    (∀ j, 1 ≤ j → j < k → stamp_of_kth w k < stamp_of_kth w j) ∧
    (enq_n w (2 ^ w)).order_ = 2 ^ w - 1 := by
  refine ⟨?_, ?_, ?_⟩
  · rw [stamp_of_kth_eq_order w k hk, enq_n_order_closed w k hk2]
  · intro j hj hjk
    rw [stamp_of_kth_eq_order w k hk, enq_n_order_closed w k hk2,
      stamp_of_kth_eq_order w j hj, enq_n_order_closed w j (by omega)]
    omega
  · have h := enq_n_order_repeat w 0
    rw [Nat.zero_add] at h
    rw [h]
    rfl

/-- Witness for the amended claim C5, at width `3` and third submission. -/
theorem claim_C5_amended_wrapping_counter_witness :
    1 ≤ 3 ∧ 3 ≤ 2 ^ 3 - 1 ∧
    (stamp_of_kth 3 3 = 2 ^ 3 - 1 - 3 ∧
      (∀ j, 1 ≤ j → j < 3 → stamp_of_kth 3 3 < stamp_of_kth 3 j) ∧
      (enq_n 3 (2 ^ 3)).order_ = 2 ^ 3 - 1) :=
  ⟨by decide, by decide,
    claim_C5_amended_wrapping_counter 3 3 (by decide) (by decide)⟩

/-- Claim C9: the counter is pre-decremented before assignment, so the `k`-th
submission on a fresh queue is stamped `(2^w - 1 - k) mod 2^w` (the maximum
representable value minus `k`, computed modulo `2^w`); the first submission
is stamped `max - 1`, not `max`; and after `2^w` further submissions the
assigned values repeat silently, with no error raised. -/
theorem claim_C9_predecrement_modular_stamp (w k : Nat) (hk : 1 ≤ k) :
    ((stamp_of_kth w k : ℤ) = ((2 ^ w : ℤ) - 1 - k) % 2 ^ w) ∧
    stamp_of_kth w (k + 2 ^ w) = stamp_of_kth w k ∧
    (1 ≤ w → stamp_of_kth w 1 = 2 ^ w - 2 ∧ stamp_of_kth w 1 ≠ 2 ^ w - 1) := by
  have hM : 1 ≤ 2 ^ w := Nat.one_le_two_pow
  refine ⟨?_, ?_, ?_⟩
  · rw [stamp_of_kth_eq_order w k hk, enq_n_order]
    push_cast [hM]
    have hsplit : ((2 ^ w : ℤ) - 1) * (k + 1) =
        ((2 ^ w : ℤ) - 1 - k) + 2 ^ w * k := by ring
    rw [hsplit, Int.add_mul_emod_self_left]
  · rw [stamp_of_kth_eq_order w (k + 2 ^ w) (by omega),
      stamp_of_kth_eq_order w k hk]
    exact enq_n_order_repeat w k
  · intro hw
    have h2 : 2 ≤ 2 ^ w := by
      calc 2 = 2 ^ 1 := rfl
        _ ≤ 2 ^ w := Nat.pow_le_pow_right (by norm_num) hw
    have he : stamp_of_kth w 1 = 2 ^ w - 2 := by
      rw [stamp_of_kth_eq_order w 1 (le_refl _), enq_n_order_closed w 1 (by omega)]
      omega
    exact ⟨he, by omega⟩

/-- Witness for claim C9, at width `3` and second submission. -/
theorem claim_C9_predecrement_modular_stamp_witness :
    1 ≤ 2 ∧
    (((stamp_of_kth 3 2 : ℤ) = ((2 ^ 3 : ℤ) - 1 - 2) % 2 ^ 3) ∧
      stamp_of_kth 3 (2 + 2 ^ 3) = stamp_of_kth 3 2 ∧
      (1 ≤ 3 → stamp_of_kth 3 1 = 2 ^ 3 - 2 ∧ stamp_of_kth 3 1 ≠ 2 ^ 3 - 1)) :=
  ⟨by decide, claim_C9_predecrement_modular_stamp 3 2 (by decide)⟩

theorem get_top_handler_none {q : execution_priority_queue} :
    q.get_top_handler = none ↔ q.handlers_ = [] := by
  unfold execution_priority_queue.get_top_handler
  cases he : extract_max q.handlers_ with
  | none => simp [extract_max_nil_iff.mp he]
  | some p =>
    simp only []
    constructor
    · intro hc; cases hc
    · intro hc
      rw [hc] at he
      simp [extract_max] at he

theorem get_top_handler_some {q : execution_priority_queue}
    {m : queued_handler} {rest : List queued_handler}
    (he : extract_max q.handlers_ = some (m, rest)) :
    q.get_top_handler = some (m, ⟨rest, q.order_⟩) := by
  unfold execution_priority_queue.get_top_handler
  rw [he]

theorem execute_highest_empty (w : Nat) {q : execution_priority_queue}
    (h : q.handlers_ = []) :
    q.execute_highest w = .ok (q, false, []) := by
  unfold execution_priority_queue.execute_highest
  rw [get_top_handler_none.mpr h, h]
  rfl

theorem execute_highest_some (w : Nat) {q : execution_priority_queue}
    {m : queued_handler} {rest : List queued_handler}
    (he : extract_max q.handlers_ = some (m, rest)) :
    q.execute_highest w =
      (if m.function_.throws
       then .error (run_enqueues w ⟨rest, q.order_⟩ m.function_.subs)
       else .ok (run_enqueues w ⟨rest, q.order_⟩ m.function_.subs,
         !(run_enqueues w ⟨rest, q.order_⟩ m.function_.subs).handlers_.isEmpty,
         [m])) := by
  unfold execution_priority_queue.execute_highest
  rw [get_top_handler_some he]

theorem bool_not_isEmpty_iff (l : List queued_handler) :
    (!l.isEmpty) = true ↔ l ≠ [] := by
  cases l <;> simp

/-- Claim C3: `execute_highest` on an empty queue performs no execution and
returns `false`; whenever it returns normally, the returned flag is `true`
exactly when some handler remains pending in the queue after the call
(in the state that already includes any items enqueued by the executed
callback); and on a nonempty queue with pairwise-distinct keys it removes
and executes precisely the unique maximal handler. -/
theorem claim_C3_execute_highest_spec (w : Nat) (q : execution_priority_queue) :
    (q.handlers_ = [] → q.execute_highest w = .ok (q, false, [])) ∧
    (∀ q2 b tr, q.execute_highest w = .ok (q2, b, tr) →
      (b = true ↔ q2.handlers_ ≠ [])) ∧
    (∀ m rest, extract_max q.handlers_ = some (m, rest) →
      q.handlers_.Pairwise (fun a b => a.key ≠ b.key) →
      (m ∈ q.handlers_ ∧
        (∀ x ∈ q.handlers_, x.key ≠ m.key → queued_handler.lt x m)) ∧
      (m.function_.throws = false →
        q.execute_highest w =
          .ok (run_enqueues w ⟨rest, q.order_⟩ m.function_.subs,
            !(run_enqueues w ⟨rest, q.order_⟩ m.function_.subs).handlers_.isEmpty,
            [m]))) := by
  refine ⟨?_, ?_, ?_⟩
  · intro h
    exact execute_highest_empty w h
  · intro q2 b tr hok
    cases he : extract_max q.handlers_ with
    | none =>
      rw [execute_highest_empty w (extract_max_nil_iff.mp he)] at hok
      simp only [Except.ok.injEq, Prod.mk.injEq] at hok
      rcases hok with ⟨rfl, rfl, rfl⟩
      simp [extract_max_nil_iff.mp he]
    | some p =>
      rw [execute_highest_some w (by rw [he])] at hok
      by_cases ht : p.1.function_.throws
      · rw [if_pos ht] at hok; cases hok
      · rw [if_neg ht] at hok
        simp only [Except.ok.injEq, Prod.mk.injEq] at hok
        rcases hok with ⟨rfl, rfl, rfl⟩
        exact bool_not_isEmpty_iff _
  · intro m rest he hpw
    have hperm := extract_max_perm he
    have hmem : m ∈ q.handlers_ := hperm.symm.subset (List.mem_cons_self m rest)
    refine ⟨⟨hmem, ?_⟩, ?_⟩
    · intro x hx hk
      exact queued_handler.lt_of_not_lt_of_key_ne
        (extract_max_is_max he x hx) (Ne.symm hk)
    · intro hth
      rw [execute_highest_some w he, if_neg (by rw [hth]; exact Bool.false_ne_true)]

/-- Witness for claim C3: on the empty fresh queue at width 3 no execution
happens and no remaining work is reported; on a concrete two-element queue,
the highest-priority handler is popped and executed and `true` is returned
because one handler remains. -/
theorem claim_C3_execute_highest_spec_witness :
    ((execution_priority_queue.fresh 3).execute_highest 3 =
      .ok (execution_priority_queue.fresh 3, false, [])) ∧
    ((⟨[⟨10, 6, Callback.mk 0 [] false⟩, ⟨100, 5, Callback.mk 1 [] false⟩],
        5⟩ : execution_priority_queue).execute_highest 3 =
      .ok (⟨[⟨10, 6, Callback.mk 0 [] false⟩], 5⟩, true,
        [⟨100, 5, Callback.mk 1 [] false⟩])) :=
  ⟨(claim_C3_execute_highest_spec 3 (execution_priority_queue.fresh 3)).1 rfl,
    ((claim_C3_execute_highest_spec 3 ⟨[⟨10, 6, Callback.mk 0 [] false⟩,
        ⟨100, 5, Callback.mk 1 [] false⟩], 5⟩).2.2
      ⟨100, 5, Callback.mk 1 [] false⟩ [⟨10, 6, Callback.mk 0 [] false⟩]
      rfl (by decide)).2 rfl⟩

theorem add_order_pred (w : Nat) {q : execution_priority_queue} (p : Int)
    (c : Callback) (h0 : 0 < q.order_) (hlt : q.order_ < 2 ^ w) :
    (q.add w p c).order_ = q.order_ - 1 := by
  show (q.order_ + (2 ^ w - 1)) % 2 ^ w = q.order_ - 1
  have hM : 1 ≤ 2 ^ w := Nat.one_le_two_pow
  have h1 : q.order_ + (2 ^ w - 1) = (q.order_ - 1) + 1 * 2 ^ w := by omega
  rw [h1, Nat.add_mul_mod_self_right]
  exact Nat.mod_eq_of_lt (by omega)

theorem add_handlers (w : Nat) (q : execution_priority_queue) (p : Int)
    (c : Callback) :
    (q.add w p c).handlers_ =
      q.handlers_ ++ [⟨p, (q.add w p c).order_, c⟩] := rfl

/-- The pending-sequence invariant exactly as claim C10 states it: every
pending stamp strictly exceeds the current counter value, and pending stamps
are pairwise distinct. -/
def claimed_seq_invariant (q : execution_priority_queue) : Prop :=
  (∀ h ∈ q.handlers_, q.order_ < h.order_) ∧
  q.handlers_.Pairwise (fun a b => a.order_ ≠ b.order_)

/-- The sequence-stamp invariant the code actually maintains: counter and
stamps are reduced modulo `2^w`, every pending stamp is at least the current
counter value (the most recently enqueued pending handler's stamp equals the
counter), and pending stamps are pairwise distinct. -/
def seq_invariant (w : Nat) (q : execution_priority_queue) : Prop :=
  q.order_ < 2 ^ w ∧
  (∀ h ∈ q.handlers_, h.order_ < 2 ^ w) ∧
  (∀ h ∈ q.handlers_, q.order_ ≤ h.order_) ∧
  q.handlers_.Pairwise (fun a b => a.order_ ≠ b.order_)

instance (w : Nat) (q : execution_priority_queue) :
    Decidable (seq_invariant w q) := by
  unfold seq_invariant; infer_instance

theorem seq_invariant_add (w : Nat) {q : execution_priority_queue} (p : Int)
    (c : Callback) (hinv : seq_invariant w q) (h0 : 0 < q.order_) :
    seq_invariant w (q.add w p c) := by
  unfold seq_invariant at hinv ⊢
  obtain ⟨ho, hb, hge, hpw⟩ := hinv
  have hord : (q.add w p c).order_ = q.order_ - 1 := add_order_pred w p c h0 ho
  have hh : (q.add w p c).handlers_ = q.handlers_ ++ [⟨p, q.order_ - 1, c⟩] := by
    rw [add_handlers, hord]
  refine ⟨?_, ?_, ?_, ?_⟩
  · rw [hord]; omega
  · rw [hh]
    intro x hx
    rcases List.mem_append.mp hx with hx | hx
    · exact hb x hx
    · simp only [List.mem_singleton] at hx; subst hx; dsimp only; omega
  · rw [hh, hord]
    intro x hx
    rcases List.mem_append.mp hx with hx | hx
    · have := hge x hx; omega
    · simp only [List.mem_singleton] at hx; subst hx; dsimp only; omega
  · rw [hh, List.pairwise_append]
    refine ⟨hpw, List.pairwise_singleton _ _, ?_⟩
    intro x hx y hy
    simp only [List.mem_singleton] at hy; subst hy
    have := hge x hx
    show x.order_ ≠ q.order_ - 1
    omega

theorem order_ne_symm : Symmetric (fun a b : queued_handler => a.order_ ≠ b.order_) :=
  fun _ _ hab => hab.symm

theorem seq_invariant_pop (w : Nat) {q : execution_priority_queue}
    {m : queued_handler} {q1 : execution_priority_queue}
    (hinv : seq_invariant w q) (hpop : q.get_top_handler = some (m, q1)) :
    seq_invariant w q1 := by
  obtain ⟨he, hord⟩ := get_top_handler_spec hpop
  unfold seq_invariant at hinv ⊢
  obtain ⟨ho, hb, hge, hpw⟩ := hinv
  have hperm := extract_max_perm he
  have hsub : ∀ x ∈ q1.handlers_, x ∈ q.handlers_ := by
    intro x hx
    exact hperm.symm.subset (List.mem_cons_of_mem _ hx)
  refine ⟨?_, ?_, ?_, ?_⟩
  · rw [hord]; exact ho
  · intro x hx; exact hb x (hsub x hx)
  · rw [hord]; intro x hx; exact hge x (hsub x hx)
  · have hp2 : (m :: q1.handlers_).Pairwise
        (fun a b => a.order_ ≠ b.order_) := by
      refine (List.Perm.pairwise_iff ?_ hperm).mp hpw
      intro a b hab
      exact hab.symm
    exact hp2.of_cons

theorem seq_invariant_run_enqueues (w : Nat) :
    ∀ (l : List (Int × Callback)) (q : execution_priority_queue),
    seq_invariant w q → l.length ≤ q.order_ →
    seq_invariant w (run_enqueues w q l) := by
  intro l
  induction l with
  | nil => intro q h _; exact h
  | cons pc r ih =>
    intro q hinv hlen
    show seq_invariant w (run_enqueues w (q.add w pc.1 pc.2) r)
    have h0 : 0 < q.order_ := by
      simp only [List.length_cons] at hlen; omega
    have hadd := seq_invariant_add w pc.1 pc.2 hinv h0
    apply ih _ hadd
    rw [add_order_pred w pc.1 pc.2 h0 hinv.1]
    simp only [List.length_cons] at hlen
    omega

theorem run_enqueues_order (w : Nat) :
    ∀ (l : List (Int × Callback)) (q : execution_priority_queue),
    l.length ≤ q.order_ → q.order_ < 2 ^ w →
    (run_enqueues w q l).order_ = q.order_ - l.length := by
  intro l
  induction l with
  | nil => intro q _ _; simp [run_enqueues]
  | cons pc r ih =>
    intro q hlen hw
    show (run_enqueues w (q.add w pc.1 pc.2) r).order_ = _
    simp only [List.length_cons] at hlen
    have h0 : 0 < q.order_ := by omega
    have hord := add_order_pred w pc.1 pc.2 h0 hw
    rw [ih _ (by rw [hord]; omega) (by rw [hord]; omega), hord]
    simp only [List.length_cons]
    omega

theorem run_enqueues_mem (w : Nat) :
    ∀ (l : List (Int × Callback)) (q : execution_priority_queue),
    l.length ≤ q.order_ → q.order_ < 2 ^ w →
    ∀ x ∈ (run_enqueues w q l).handlers_, x ∈ q.handlers_ ∨ x.order_ < q.order_ := by
  intro l
  induction l with
  | nil => intro q _ _ x hx; exact Or.inl hx
  | cons pc r ih =>
    intro q hlen hw x hx
    simp only [List.length_cons] at hlen
    have h0 : 0 < q.order_ := by omega
    have hord := add_order_pred w pc.1 pc.2 h0 hw
    have hstep := ih (q.add w pc.1 pc.2)
      (by rw [hord]; omega) (by rw [hord]; omega) x hx
    rcases hstep with hx2 | hx2
    · rw [add_handlers] at hx2
      rcases List.mem_append.mp hx2 with hx3 | hx3
      · exact Or.inl hx3
      · simp only [List.mem_singleton] at hx3
        subst hx3
        right
        rw [hord]
        dsimp only
        omega
    · right
      rw [hord] at hx2
      omega

theorem execute_all_empty (w : Nat) {q : execution_priority_queue}
    (h : q.handlers_ = []) : q.execute_all w = (q, [], false) := by
  unfold execution_priority_queue.execute_all
  split
  · rfl
  · rename_i m q1 hq
    rw [get_top_handler_none.mpr h] at hq
    cases hq

theorem execute_all_some (w : Nat) {q : execution_priority_queue}
    {m : queued_handler} {rest : List queued_handler}
    (he : extract_max q.handlers_ = some (m, rest)) :
    q.execute_all w =
      (if m.function_.throws
       then (run_enqueues w ⟨rest, q.order_⟩ m.function_.subs, [m], true)
       else
         (((run_enqueues w ⟨rest, q.order_⟩ m.function_.subs).execute_all w).1,
          m :: ((run_enqueues w ⟨rest, q.order_⟩
            m.function_.subs).execute_all w).2.1,
          ((run_enqueues w ⟨rest, q.order_⟩
            m.function_.subs).execute_all w).2.2)) := by
  conv_lhs => unfold execution_priority_queue.execute_all
  split
  · rename_i hq
    rw [get_top_handler_some he] at hq
    cases hq
  · rename_i m1 q1 hq
    rw [get_top_handler_some he] at hq
    simp only [Option.some.injEq, Prod.mk.injEq] at hq
    rcases hq with ⟨rfl, rfl⟩
    rfl

/-- Total number of enqueues performed by the callbacks of a handler list. -/
def spawn_total (tr : List queued_handler) : Nat :=
  (tr.map (fun h => h.function_.subs.length)).sum

theorem seq_invariant_execute_all (w : Nat) :
    ∀ (n : Nat) (q : execution_priority_queue), queue_weight q ≤ n →
    seq_invariant w q → spawn_total (q.execute_all w).2.1 ≤ q.order_ →
    seq_invariant w (q.execute_all w).1 := by
  intro n
  induction n using Nat.strong_induction_on with
  | _ n ih =>
    intro q hw hinv hsp
    cases he : extract_max q.handlers_ with
    | none =>
      rw [execute_all_empty w (extract_max_nil_iff.mp he)]
      exact hinv
    | some p =>
      obtain ⟨m, rest⟩ := p
      have hq1inv : seq_invariant w (⟨rest, q.order_⟩ : execution_priority_queue) :=
        seq_invariant_pop w hinv (get_top_handler_some he)
      rw [execute_all_some w he] at hsp ⊢
      by_cases ht : m.function_.throws
      · rw [if_pos ht] at hsp ⊢
        dsimp only at hsp ⊢
        apply seq_invariant_run_enqueues w _ _ hq1inv
        simp [spawn_total] at hsp
        show m.function_.subs.length ≤ q.order_
        omega
      · rw [if_neg ht] at hsp ⊢
        dsimp only at hsp ⊢
        have hroom : m.function_.subs.length ≤ q.order_ := by
          simp only [spawn_total, List.map_cons, List.sum_cons] at hsp
          omega
        have hq2inv : seq_invariant w
            (run_enqueues w ⟨rest, q.order_⟩ m.function_.subs) :=
          seq_invariant_run_enqueues w _ _ hq1inv hroom
        have hq2ord : (run_enqueues w ⟨rest, q.order_⟩ m.function_.subs).order_ =
            q.order_ - m.function_.subs.length :=
          run_enqueues_order w _ _ hroom hinv.1
        have hdec : queue_weight (run_enqueues w ⟨rest, q.order_⟩
            m.function_.subs) < queue_weight q := by
          rw [queue_weight_extract (get_top_handler_some he),
            queue_weight_run_enqueues]
          have := subs_weight_lt m.function_
          omega
        apply ih (queue_weight (run_enqueues w ⟨rest, q.order_⟩
            m.function_.subs)) (by omega) _ (le_refl _) hq2inv
        simp only [spawn_total, List.map_cons, List.sum_cons] at hsp
        rw [hq2ord]
        simp only [spawn_total]
        omega

theorem queued_handler.lt_total_of_order_ne {a b : queued_handler}
    (h : a.order_ ≠ b.order_) :
    queued_handler.lt a b ∨ queued_handler.lt b a := by
  rcases a with ⟨pa, oa, fa⟩
  rcases b with ⟨pb, ob, fb⟩
  simp only [queued_handler.lt] at *
  omega

theorem key_ne_of_order_ne {a b : queued_handler}
    (h : a.order_ ≠ b.order_) : a.key ≠ b.key :=
  fun hk => h (congrArg Prod.snd hk)

/-- Counterexample to claim C10 as stated: on the queue obtained from a fresh
width-64 queue by a single enqueue — one enqueue, far fewer than `2^64` — the
pending handler's sequence stamp EQUALS the current counter value (both are
`2^64 - 2`, because `add` stamps the pre-decremented counter), so the claimed
"each strictly greater than the current counter value" fails. -/
theorem claim_C10_counterexample :
    ¬ claimed_seq_invariant
      ((execution_priority_queue.fresh 64).add 64 priority.low
        (Callback.mk 0 [] false)) := by
  intro hcl
  have hmem : (⟨priority.low,
      ((execution_priority_queue.fresh 64).order_ + (2 ^ 64 - 1)) % 2 ^ 64,
      Callback.mk 0 [] false⟩ : queued_handler) ∈
      ((execution_priority_queue.fresh 64).add 64 priority.low
        (Callback.mk 0 [] false)).handlers_ := by
    show _ ∈ [_]
    exact List.mem_singleton.mpr rfl
  have hlt := hcl.1 _ hmem
  exact absurd hlt (lt_irrefl _)

/-- Claim C10 as amended: starting from a fresh queue, every operation
preserves the invariant that pending handlers hold pairwise-distinct sequence
stamps, each at least — not strictly greater than — the current counter value
(the most recently enqueued pending handler's stamp equals the counter):
enqueue preserves it while the counter has not wrapped to zero, popping
always preserves it, the enqueues performed by an executed callback and the
two drain operations preserve it while the number of enqueues stays within
the counter, and under the invariant the `(priority, sequence)` key is a
strict total order on pending handlers, so every pop has a unique,
deterministic result. -/
theorem claim_C10_amended_invariant (w : Nat) :
    seq_invariant w (execution_priority_queue.fresh w) ∧
    (∀ q p c, seq_invariant w q → 0 < q.order_ →
      seq_invariant w (q.add w p c)) ∧
    (∀ q m q1, seq_invariant w q → q.get_top_handler = some (m, q1) →
      seq_invariant w q1) ∧
    (∀ q : execution_priority_queue, seq_invariant w q →
      (∀ x ∈ q.handlers_, x.function_.subs.length ≤ q.order_) →
      (∀ q2 b tr, q.execute_highest w = .ok (q2, b, tr) →
        seq_invariant w q2) ∧
      (∀ q2, q.execute_highest w = .error q2 → seq_invariant w q2)) ∧
    (∀ q : execution_priority_queue, seq_invariant w q →
      spawn_total (q.execute_all w).2.1 ≤ q.order_ →
      seq_invariant w (q.execute_all w).1) ∧
    (∀ q : execution_priority_queue, seq_invariant w q →
      q.handlers_.Pairwise
        (fun a b => queued_handler.lt a b ∨ queued_handler.lt b a)) ∧
    (∀ q m rest, seq_invariant w q → extract_max q.handlers_ = some (m, rest) →
      ∀ x ∈ rest, queued_handler.lt x m) := by
  have hpop_pairwise : ∀ (q : execution_priority_queue) m rest,
      seq_invariant w q → extract_max q.handlers_ = some (m, rest) →
      (m :: rest).Pairwise (fun a b => a.order_ ≠ b.order_) := by
    intro q m rest hinv he
    refine (List.Perm.pairwise_iff ?_ (extract_max_perm he)).mp hinv.2.2.2
    intro a b hab
    exact hab.symm
  refine ⟨?_, ?_, ?_, ?_, ?_, ?_, ?_⟩
  · unfold seq_invariant
    refine ⟨?_, ?_, ?_, ?_⟩
    · have := Nat.one_le_two_pow (n := w); show 2 ^ w - 1 < 2 ^ w; omega
    · intro x hx; cases hx
    · intro x hx; cases hx
    · exact List.Pairwise.nil
  · intro q p c hinv h0
    exact seq_invariant_add w p c hinv h0
  · intro q m q1 hinv hpop
    exact seq_invariant_pop w hinv hpop
  · intro q hinv hsubs
    constructor
    · intro q2 b tr hok
      cases he : extract_max q.handlers_ with
      | none =>
        rw [execute_highest_empty w (extract_max_nil_iff.mp he)] at hok
        simp only [Except.ok.injEq, Prod.mk.injEq] at hok
        rcases hok with ⟨rfl, rfl, rfl⟩
        exact hinv
      | some p2 =>
        obtain ⟨m, rest⟩ := p2
        rw [execute_highest_some w he] at hok
        by_cases ht : m.function_.throws
        · rw [if_pos ht] at hok; cases hok
        · rw [if_neg ht] at hok
          simp only [Except.ok.injEq, Prod.mk.injEq] at hok
          rcases hok with ⟨rfl, rfl, rfl⟩
          apply seq_invariant_run_enqueues w _ _
            (seq_invariant_pop w hinv (get_top_handler_some he))
          exact hsubs m ((extract_max_perm he).symm.subset
            (List.mem_cons_self m rest))
    · intro q2 herr
      cases he : extract_max q.handlers_ with
      | none =>
        rw [execute_highest_empty w (extract_max_nil_iff.mp he)] at herr
        cases herr
      | some p2 =>
        obtain ⟨m, rest⟩ := p2
        rw [execute_highest_some w he] at herr
        by_cases ht : m.function_.throws
        · rw [if_pos ht] at herr
          simp only [Except.error.injEq] at herr
          subst herr
          apply seq_invariant_run_enqueues w _ _
            (seq_invariant_pop w hinv (get_top_handler_some he))
          exact hsubs m ((extract_max_perm he).symm.subset
            (List.mem_cons_self m rest))
        · rw [if_neg ht] at herr; cases herr
  · intro q hinv hsp
    exact seq_invariant_execute_all w (queue_weight q) q (le_refl _) hinv hsp
  · intro q hinv
    exact hinv.2.2.2.imp (fun h => queued_handler.lt_total_of_order_ne h)
  · intro q m rest hinv he x hx
    have hhead := (List.pairwise_cons.mp (hpop_pairwise q m rest hinv he)).1
    have hxmem : x ∈ q.handlers_ :=
      (extract_max_perm he).symm.subset (List.mem_cons_of_mem _ hx)
    exact queued_handler.lt_of_not_lt_of_key_ne
      (extract_max_is_max he x hxmem)
      (key_ne_of_order_ne (hhead x hx))

/-- Witness for the amended claim C10: the invariant holds on a fresh width-3
queue and is preserved by an enqueue on it. -/
theorem claim_C10_amended_invariant_witness :
    seq_invariant 3 (execution_priority_queue.fresh 3) ∧
    seq_invariant 3 ((execution_priority_queue.fresh 3).add 3 10
      (Callback.mk 0 [] false)) :=
  ⟨(claim_C10_amended_invariant 3).1,
    (claim_C10_amended_invariant 3).2.1 (execution_priority_queue.fresh 3) 10
      (Callback.mk 0 [] false) (claim_C10_amended_invariant 3).1 (by decide)⟩

/-- Claim C6: in every pop-and-execute step the handler is removed from the
queue before its callback is invoked — the state the callback's enqueues are
applied to no longer contains it, so a re-entrant callback cannot observe
itself as pending — and if the callback raises, the exception propagates
(`Except.error`) with the popped handler not requeued: no handler with its
sequence stamp is pending in the resulting state. -/
theorem claim_C6_removed_before_execution (w : Nat)
    (q : execution_priority_queue) (m : queued_handler)
    (rest : List queued_handler)
    (he : extract_max q.handlers_ = some (m, rest))
    (hinv : seq_invariant w q)
    (hroom : m.function_.subs.length ≤ q.order_) :
    m ∉ rest ∧
    (∀ x ∈ (run_enqueues w ⟨rest, q.order_⟩ m.function_.subs).handlers_,
      x.order_ ≠ m.order_) ∧
    (m.function_.throws = true →
      q.execute_highest w =
        .error (run_enqueues w ⟨rest, q.order_⟩ m.function_.subs)) := by
  have hperm := extract_max_perm he
  have hp2 : (m :: rest).Pairwise (fun a b => a.order_ ≠ b.order_) := by
    refine (List.Perm.pairwise_iff ?_ hperm).mp hinv.2.2.2
    intro a b hab
    exact hab.symm
  have hhead := (List.pairwise_cons.mp hp2).1
  have hmmem : m ∈ q.handlers_ := hperm.symm.subset (List.mem_cons_self m rest)
  refine ⟨?_, ?_, ?_⟩
  · intro hc
    exact hhead m hc rfl
  · intro x hx
    have hcase := run_enqueues_mem w m.function_.subs ⟨rest, q.order_⟩
      hroom hinv.1 x hx
    rcases hcase with hx2 | hx2
    · exact fun hc => hhead x hx2 hc.symm
    · have hgem := hinv.2.2.1 m hmmem
      dsimp only at hx2
      omega
  · intro hth
    rw [execute_highest_some w he, if_pos hth]

/-- Witness for claim C6: a concrete width-3 queue holding one handler whose
callback enqueues one item and then throws; the handler is not requeued and
the exception propagates with the queue holding only the newly enqueued
item. -/
theorem claim_C6_removed_before_execution_witness :
    ((⟨5, 6, Callback.mk 1 [(2, Callback.mk 2 [] false)] true⟩ :
        queued_handler) ∉ ([] : List queued_handler)) ∧
    ((⟨[⟨5, 6, Callback.mk 1 [(2, Callback.mk 2 [] false)] true⟩], 6⟩ :
        execution_priority_queue).execute_highest 3 =
      .error ⟨[⟨2, 5, Callback.mk 2 [] false⟩], 5⟩) :=
  ⟨(claim_C6_removed_before_execution 3
      ⟨[⟨5, 6, Callback.mk 1 [(2, Callback.mk 2 [] false)] true⟩], 6⟩
      ⟨5, 6, Callback.mk 1 [(2, Callback.mk 2 [] false)] true⟩ []
      rfl (by decide) (by decide)).1,
    (claim_C6_removed_before_execution 3
      ⟨[⟨5, 6, Callback.mk 1 [(2, Callback.mk 2 [] false)] true⟩], 6⟩
      ⟨5, 6, Callback.mk 1 [(2, Callback.mk 2 [] false)] true⟩ []
      rfl (by decide) (by decide)).2.2 rfl⟩

theorem run_enqueues_handlers_map (w : Nat) :
    ∀ (l : List (Int × Callback)) (q : execution_priority_queue),
    (run_enqueues w q l).handlers_.map (fun h => h.function_) =
      q.handlers_.map (fun h => h.function_) ++ l.map (fun pc => pc.2) := by
  intro l
  induction l with
  | nil => intro q; simp [run_enqueues]
  | cons pc r ih =>
    intro q
    show (run_enqueues w (q.add w pc.1 pc.2) r).handlers_.map _ = _
    rw [ih, add_handlers]
    simp

theorem execute_all_drain (w : Nat) :
    ∀ (n : Nat) (q : execution_priority_queue), queue_weight q ≤ n →
    (q.execute_all w).2.2 = false →
    (q.execute_all w).1.handlers_ = [] ∧
    ((q.execute_all w).2.1.map (fun h => h.function_)).Perm
      (q.handlers_.map (fun h => h.function_) ++
        (q.execute_all w).2.1.flatMap
          (fun h => h.function_.subs.map (fun pc => pc.2))) := by
  intro n
  induction n using Nat.strong_induction_on with
  | _ n ih =>
    intro q hw hok
    cases he : extract_max q.handlers_ with
    | none =>
      rw [execute_all_empty w (extract_max_nil_iff.mp he)]
      simp [extract_max_nil_iff.mp he]
    | some p =>
      obtain ⟨m, rest⟩ := p
      rw [execute_all_some w he] at hok ⊢
      by_cases ht : m.function_.throws
      · rw [if_pos ht] at hok; cases hok
      · rw [if_neg ht] at hok ⊢
        dsimp only at hok ⊢
        have hdec : queue_weight (run_enqueues w ⟨rest, q.order_⟩
            m.function_.subs) < queue_weight q := by
          rw [queue_weight_extract (get_top_handler_some he),
            queue_weight_run_enqueues]
          have := subs_weight_lt m.function_
          omega
        obtain ⟨hempty, hperm2⟩ := ih (queue_weight (run_enqueues w
            ⟨rest, q.order_⟩ m.function_.subs)) (by omega) _ (le_refl _) hok
        refine ⟨hempty, ?_⟩
        rw [List.map_cons, List.flatMap_cons]
        have hq2map : (run_enqueues w ⟨rest, q.order_⟩
            m.function_.subs).handlers_.map (fun h => h.function_) =
            rest.map (fun h => h.function_) ++
              m.function_.subs.map (fun pc => pc.2) := by
          rw [run_enqueues_handlers_map]
        rw [hq2map] at hperm2
        have hqperm : (q.handlers_.map (fun h => h.function_)).Perm
            (m.function_ :: rest.map (fun h => h.function_)) := by
          have := (extract_max_perm he).map (fun h => h.function_)
          simpa using this
        refine ((hperm2.cons m.function_).trans ?_).trans
          ((hqperm.symm.append_right _))
        simp [List.append_assoc]

/-- Claim C2: whenever `execute_all` returns without a callback exception
escaping, the queue has been drained completely — the final handler store is
empty — and the multiset of executed callables equals the initially pending
callables plus every callable enqueued by an executed callback (so each of
the N pending items runs exactly once and recursively enqueued work runs
before the call returns); on an empty queue `execute_all` returns
immediately with zero executions. -/
theorem claim_C2_run_all_recursive_drain (w : Nat)
    (q : execution_priority_queue)
    (hok : (q.execute_all w).2.2 = false) :
    (q.execute_all w).1.handlers_ = [] ∧
    ((q.execute_all w).2.1.map (fun h => h.function_)).Perm
      (q.handlers_.map (fun h => h.function_) ++
        (q.execute_all w).2.1.flatMap
          (fun h => h.function_.subs.map (fun pc => pc.2))) ∧
    (q.handlers_ = [] → q.execute_all w = (q, [], false)) :=
  ⟨(execute_all_drain w (queue_weight q) q (le_refl _) hok).1,
    (execute_all_drain w (queue_weight q) q (le_refl _) hok).2,
    fun hq => execute_all_empty w hq⟩

/-- Witness for claim C2: a concrete width-3 queue holding one handler whose
callback enqueues a further callback; the drain executes both — the initial
one and the recursively enqueued one — and ends with an empty store. -/
theorem claim_C2_run_all_recursive_drain_witness :
    ((((⟨[⟨5, 6, Callback.mk 0 [(7, Callback.mk 1 [] false)] false⟩], 6⟩ :
        execution_priority_queue).execute_all 3).2.2 = false) ∧
      (((⟨[⟨5, 6, Callback.mk 0 [(7, Callback.mk 1 [] false)] false⟩], 6⟩ :
        execution_priority_queue).execute_all 3).1.handlers_ = [])) ∧
    (((⟨[⟨5, 6, Callback.mk 0 [(7, Callback.mk 1 [] false)] false⟩], 6⟩ :
        execution_priority_queue).execute_all 3).2.1.map
          (fun h => h.function_)).Perm
      (([⟨5, 6, Callback.mk 0 [(7, Callback.mk 1 [] false)] false⟩] :
          List queued_handler).map (fun h => h.function_) ++
        ((⟨[⟨5, 6, Callback.mk 0 [(7, Callback.mk 1 [] false)] false⟩], 6⟩ :
            execution_priority_queue).execute_all 3).2.1.flatMap
          (fun h => h.function_.subs.map (fun pc => pc.2))) := by
  have e1 : extract_max ([⟨5, 6, Callback.mk 0
      [(7, Callback.mk 1 [] false)] false⟩] : List queued_handler) =
      some (⟨5, 6, Callback.mk 0 [(7, Callback.mk 1 [] false)] false⟩, []) := rfl
  have hstep1 := execute_all_some 3
    (q := (⟨[⟨5, 6, Callback.mk 0 [(7, Callback.mk 1 [] false)] false⟩], 6⟩ :
      execution_priority_queue)) e1
  rw [if_neg (by decide)] at hstep1
  have e2 : extract_max (run_enqueues 3 ⟨([] : List queued_handler), 6⟩
      (Callback.mk 0 [(7, Callback.mk 1 [] false)] false).subs).handlers_ =
      some (⟨7, 5, Callback.mk 1 [] false⟩, []) := rfl
  have hstep2 := execute_all_some 3
    (q := run_enqueues 3 ⟨([] : List queued_handler), 6⟩
      (Callback.mk 0 [(7, Callback.mk 1 [] false)] false).subs) e2
  rw [if_neg (by decide)] at hstep2
  have e3 : (run_enqueues 3 ⟨([] : List queued_handler),
      (run_enqueues 3 ⟨([] : List queued_handler), 6⟩
        (Callback.mk 0 [(7, Callback.mk 1 [] false)] false).subs).order_⟩
      (Callback.mk 1 [] false).subs).handlers_ = [] := rfl
  have hstep3 := execute_all_empty 3 e3
  rw [hstep3] at hstep2
  have hq2 : (run_enqueues 3 ⟨([] : List queued_handler), 6⟩
      (Callback.mk 0 [(7, Callback.mk 1 [] false)] false).subs).execute_all 3 =
      (⟨[], 5⟩, [⟨7, 5, Callback.mk 1 [] false⟩], false) := by
    rw [hstep2]
    rfl
  rw [hq2] at hstep1
  have hok : ((⟨[⟨5, 6, Callback.mk 0 [(7, Callback.mk 1 [] false)] false⟩],
      6⟩ : execution_priority_queue).execute_all 3).2.2 = false := by
    rw [hstep1]
  refine ⟨⟨hok, ?_⟩, ?_⟩
  · exact (claim_C2_run_all_recursive_drain 3 _ hok).1
  · exact (claim_C2_run_all_recursive_drain 3 _ hok).2.1

/-- Enqueue the priorities `ps` in order onto `q` through `add`, labelling the
inert callbacks with consecutive indices starting at `i`. -/
def enqueue_from (w : Nat) (i : Nat) (q : execution_priority_queue) :
    List Int → execution_priority_queue
  | [] => q
  | p :: ps => enqueue_from w (i + 1) (q.add w p (Callback.mk i [] false)) ps

/-- Fresh queue enqueued with the priorities `ps`; the `i`-th enqueue
(0-based) carries an inert callback labelled `i`. -/
def enqueue_all (w : Nat) (ps : List Int) : execution_priority_queue :=
  enqueue_from w 0 (execution_priority_queue.fresh w) ps

/-- Executed-handler trace of enqueuing `ps` on a fresh queue and draining
it with `execute_all`. -/
def drain_trace (w : Nat) (ps : List Int) : List queued_handler :=
  ((enqueue_all w ps).execute_all w).2.1

/-- Enqueue-order relation: an earlier-enqueued handler carries a smaller
label and a strictly larger sequence stamp. -/
def enq_rel (a b : queued_handler) : Prop :=
  a.function_.label < b.function_.label ∧ b.order_ < a.order_

theorem enqueue_from_spec (w : Nat) :
    ∀ (ps : List Int) (i : Nat) (q : execution_priority_queue),
    ps.length ≤ q.order_ → q.order_ < 2 ^ w →
    (∀ x ∈ q.handlers_, x.function_.label < i ∧ q.order_ ≤ x.order_) →
    q.handlers_.Pairwise enq_rel →
    (∀ x ∈ q.handlers_, x.function_.subs = [] ∧ x.function_.throws = false) →
    (enqueue_from w i q ps).handlers_.Pairwise enq_rel ∧
    (enqueue_from w i q ps).handlers_.map (fun x => x.function_.label) =
      q.handlers_.map (fun x => x.function_.label) ++
        (List.range ps.length).map (fun j => i + j) ∧
    (enqueue_from w i q ps).handlers_.map (fun x => x.priority_) =
      q.handlers_.map (fun x => x.priority_) ++ ps ∧
    (∀ x ∈ (enqueue_from w i q ps).handlers_,
      x.function_.subs = [] ∧ x.function_.throws = false) ∧
    (∀ x ∈ (enqueue_from w i q ps).handlers_,
      x.function_.label < i + ps.length ∧
        (enqueue_from w i q ps).order_ ≤ x.order_) := by
  intro ps
  induction ps with
  | nil =>
    intro i q hlen hw hlab hpw hin
    refine ⟨hpw, by simp [enqueue_from], by simp [enqueue_from], hin, ?_⟩
    intro x hx
    have := hlab x hx
    exact ⟨by omega, this.2⟩
  | cons p ps ih =>
    intro i q hlen hw hlab hpw hin
    simp only [List.length_cons] at hlen
    have h0 : 0 < q.order_ := by omega
    have hord := add_order_pred w p (Callback.mk i [] false) h0 hw
    have hh : (q.add w p (Callback.mk i [] false)).handlers_ =
        q.handlers_ ++ [⟨p, q.order_ - 1, Callback.mk i [] false⟩] := by
      rw [add_handlers, hord]
    have precLab : ∀ x ∈ (q.add w p (Callback.mk i [] false)).handlers_,
        x.function_.label < i + 1 ∧
          (q.add w p (Callback.mk i [] false)).order_ ≤ x.order_ := by
      rw [hh, hord]
      intro x hx
      rcases List.mem_append.mp hx with hx | hx
      · have := hlab x hx
        exact ⟨by omega, by omega⟩
      · simp only [List.mem_singleton] at hx
        subst hx
        exact ⟨by show i < i + 1; omega, by show q.order_ - 1 ≤ q.order_ - 1; omega⟩
    have precPw : (q.add w p (Callback.mk i [] false)).handlers_.Pairwise
        enq_rel := by
      rw [hh, List.pairwise_append]
      refine ⟨hpw, List.pairwise_singleton _ _, ?_⟩
      intro x hx y hy
      simp only [List.mem_singleton] at hy
      subst hy
      have := hlab x hx
      show x.function_.label < i ∧ q.order_ - 1 < x.order_
      omega
    have precIn : ∀ x ∈ (q.add w p (Callback.mk i [] false)).handlers_,
        x.function_.subs = [] ∧ x.function_.throws = false := by
      rw [hh]
      intro x hx
      rcases List.mem_append.mp hx with hx | hx
      · exact hin x hx
      · simp only [List.mem_singleton] at hx
        subst hx
        exact ⟨rfl, rfl⟩
    obtain ⟨P1, P2, P3, P4, P5⟩ := ih (i + 1) (q.add w p (Callback.mk i [] false))
      (by rw [hord]; omega) (by rw [hord]; omega) precLab precPw precIn
    have hstep : enqueue_from w i q (p :: ps) =
        enqueue_from w (i + 1) (q.add w p (Callback.mk i [] false)) ps := rfl
    have hrange : (List.range (ps.length + 1)).map (fun j => i + j) =
        i :: (List.range ps.length).map (fun j => i + 1 + j) := by
      rw [List.range_succ_eq_map, List.map_cons, List.map_map]
      have hc : ((fun j => i + j) ∘ Nat.succ) = fun j => i + 1 + j := by
        funext j
        show i + (j + 1) = i + 1 + j
        omega
      rw [hc, Nat.add_zero]
    refine ⟨?_, ?_, ?_, ?_, ?_⟩
    · rw [hstep]; exact P1
    · rw [hstep, P2, hh]
      simp only [List.length_cons, hrange, List.map_append, List.map_cons,
        List.map_nil]
      simp [Callback.label]
    · rw [hstep, P3, hh]
      simp
    · rw [hstep]; exact P4
    · rw [hstep]
      intro x hx
      have := P5 x hx
      simp only [List.length_cons]
      exact ⟨by omega, this.2⟩

theorem execute_all_inert (w : Nat) :
    ∀ (n : Nat) (q : execution_priority_queue), q.handlers_.length ≤ n →
    (∀ x ∈ q.handlers_, x.function_.subs = [] ∧ x.function_.throws = false) →
    q.handlers_.Pairwise (fun a b => a.key ≠ b.key) →
    (q.execute_all w).1.handlers_ = [] ∧
    (q.execute_all w).2.2 = false ∧
    (q.execute_all w).2.1.Perm q.handlers_ ∧
    (q.execute_all w).2.1.Pairwise (fun a b => queued_handler.lt b a) := by
  intro n
  induction n with
  | zero =>
    intro q hlen hin hpw
    have hnil : q.handlers_ = [] := List.length_eq_zero.mp (by omega)
    rw [execute_all_empty w hnil, hnil]
    exact ⟨rfl, rfl, List.Perm.refl _, List.Pairwise.nil⟩
  | succ n ih =>
    intro q hlen hin hpw
    cases he : extract_max q.handlers_ with
    | none =>
      have hnil := extract_max_nil_iff.mp he
      rw [execute_all_empty w hnil, hnil]
      exact ⟨rfl, rfl, List.Perm.refl _, List.Pairwise.nil⟩
    | some p =>
      obtain ⟨m, rest⟩ := p
      have hperm := extract_max_perm he
      have hmmem : m ∈ q.handlers_ := hperm.symm.subset (List.mem_cons_self m rest)
      have hsubs : m.function_.subs = [] := (hin m hmmem).1
      have hth : m.function_.throws = false := (hin m hmmem).2
      have hrun : run_enqueues w ⟨rest, q.order_⟩ m.function_.subs =
          (⟨rest, q.order_⟩ : execution_priority_queue) := by
        rw [hsubs]
        rfl
      rw [execute_all_some w he, if_neg (by rw [hth]; exact Bool.false_ne_true),
        hrun]
      dsimp only
      have hp2 : (m :: rest).Pairwise (fun a b => a.key ≠ b.key) := by
        refine (List.Perm.pairwise_iff ?_ hperm).mp hpw
        intro a b hab
        exact hab.symm
      have hlrest : rest.length ≤ n := by
        have := hperm.length_eq
        simp only [List.length_cons] at this
        omega
      obtain ⟨D1, D2, D3, D4⟩ := ih ⟨rest, q.order_⟩ hlrest
        (fun x hx => hin x (hperm.symm.subset (List.mem_cons_of_mem _ hx)))
        hp2.of_cons
      refine ⟨D1, D2, ?_, ?_⟩
      · exact (D3.cons m).trans hperm.symm
      · refine List.Pairwise.cons ?_ D4
        intro x hx
        have hxrest : x ∈ rest := D3.subset hx
        have hxmem : x ∈ q.handlers_ :=
          hperm.symm.subset (List.mem_cons_of_mem _ hxrest)
        exact queued_handler.lt_of_not_lt_of_key_ne
          (extract_max_is_max he x hxmem)
          ((List.pairwise_cons.mp hp2).1 x hxrest)

theorem execute_all_inert_step (w : Nat) {q : execution_priority_queue}
    {m : queued_handler} {rest : List queued_handler}
    (he : extract_max q.handlers_ = some (m, rest))
    (hs : m.function_.subs = []) (ht : m.function_.throws = false) :
    q.execute_all w =
      (((⟨rest, q.order_⟩ : execution_priority_queue).execute_all w).1,
       m :: ((⟨rest, q.order_⟩ : execution_priority_queue).execute_all w).2.1,
       ((⟨rest, q.order_⟩ : execution_priority_queue).execute_all w).2.2) := by
  have hrun : run_enqueues w ⟨rest, q.order_⟩ m.function_.subs =
      (⟨rest, q.order_⟩ : execution_priority_queue) := by
    rw [hs]
    rfl
  rw [execute_all_some w he, if_neg (by rw [ht]; exact Bool.false_ne_true), hrun]

/-- Claim C1: enqueuing any finite priority sequence and then draining pops
the items in non-increasing priority order, and among equal priorities in
exactly the order they were enqueued (strict FIFO): the drain succeeds and
empties the store, the executed priorities are a permutation of the input,
the executed labels (enqueue positions) are a permutation of `0..n-1`, any
later-executed item has strictly smaller priority or equal priority and a
strictly larger enqueue position, and in particular enqueuing
`(10,A) (100,B) (10,C) (50,D)` at width 64 drains as `B, D, A, C`. -/
theorem claim_C1_priority_fifo_order (w : Nat) (ps : List Int)
    (hn : ps.length < 2 ^ w) :
    ((enqueue_all w ps).execute_all w).2.2 = false ∧
    ((enqueue_all w ps).execute_all w).1.handlers_ = [] ∧
    ((drain_trace w ps).map (fun x => x.priority_)).Perm ps ∧
    ((drain_trace w ps).map (fun x => x.function_.label)).Perm
      (List.range ps.length) ∧
    (∀ a b : Fin (drain_trace w ps).length, a < b →
      ((drain_trace w ps).get b).priority_ <
          ((drain_trace w ps).get a).priority_ ∨
      (((drain_trace w ps).get b).priority_ =
          ((drain_trace w ps).get a).priority_ ∧
        ((drain_trace w ps).get a).function_.label <
          ((drain_trace w ps).get b).function_.label)) ∧
    (drain_trace 64 [10, 100, 10, 50]).map (fun x => x.function_.label) =
      [1, 3, 0, 2] := by
  have hM : 1 ≤ 2 ^ w := Nat.one_le_two_pow
  obtain ⟨E1, E2, E3, E4, E5⟩ := enqueue_from_spec w ps 0
    (execution_priority_queue.fresh w)
    (by show ps.length ≤ 2 ^ w - 1; omega)
    (by show 2 ^ w - 1 < 2 ^ w; omega)
    (by intro x hx; cases hx) List.Pairwise.nil (by intro x hx; cases hx)
  have E1a : (enqueue_all w ps).handlers_.Pairwise enq_rel := E1
  have E2s : (enqueue_all w ps).handlers_.map (fun x => x.function_.label) =
      List.range ps.length := by
    have := E2
    simpa using this
  have E3s : (enqueue_all w ps).handlers_.map (fun x => x.priority_) = ps := by
    have := E3
    simpa using this
  have E4a : ∀ x ∈ (enqueue_all w ps).handlers_,
      x.function_.subs = [] ∧ x.function_.throws = false := E4
  have hkpw : (enqueue_all w ps).handlers_.Pairwise
      (fun a b => a.key ≠ b.key) :=
    E1a.imp (fun hab => key_ne_of_order_ne (Nat.ne_of_gt hab.2))
  obtain ⟨D1, D2, D3, D4⟩ := execute_all_inert w
    ((enqueue_all w ps).handlers_.length) (enqueue_all w ps) (le_refl _)
    E4a hkpw
  refine ⟨D2, D1, ?_, ?_, ?_, ?_⟩
  · have hpr := D3.map (fun x => x.priority_)
    rw [E3s] at hpr
    exact hpr
  · have hlb := D3.map (fun x => x.function_.label)
    rw [E2s] at hlb
    exact hlb
  · intro a b hab
    have hlt := List.pairwise_iff_get.mp D4 a b hab
    rcases hlt with hp | hpo
    · exact Or.inl hp
    · right
      refine ⟨hpo.1, ?_⟩
      have ho := hpo.2
      have hga : ((enqueue_all w ps).execute_all w).2.1.get a ∈
          (enqueue_all w ps).handlers_ :=
        D3.subset (List.get_mem _ _ _)
      have hgb : ((enqueue_all w ps).execute_all w).2.1.get b ∈
          (enqueue_all w ps).handlers_ :=
        D3.subset (List.get_mem _ _ _)
      have hSpw : (enqueue_all w ps).handlers_.Pairwise
          (fun x y => enq_rel x y ∨ enq_rel y x) :=
        E1a.imp (fun hab2 => Or.inl hab2)
      have hsymm : Symmetric (fun x y : queued_handler =>
          enq_rel x y ∨ enq_rel y x) := fun x y hxy => hxy.symm
      have hne : ((enqueue_all w ps).execute_all w).2.1.get a ≠
          ((enqueue_all w ps).execute_all w).2.1.get b := by
        intro hcontra
        rw [hcontra] at ho
        exact lt_irrefl _ ho
      have hS := List.Pairwise.forall hsymm hSpw hga hgb hne
      rcases hS with h1 | h1
      · exact h1.1
      · exfalso
        have h2 : (((enqueue_all w ps).execute_all w).2.1.get a).order_ <
            (((enqueue_all w ps).execute_all w).2.1.get b).order_ := h1.2
        omega
  · have hq0 : enqueue_all 64 [10, 100, 10, 50] =
        ⟨[⟨10, 2 ^ 64 - 2, Callback.mk 0 [] false⟩,
          ⟨100, 2 ^ 64 - 3, Callback.mk 1 [] false⟩,
          ⟨10, 2 ^ 64 - 4, Callback.mk 2 [] false⟩,
          ⟨50, 2 ^ 64 - 5, Callback.mk 3 [] false⟩], 2 ^ 64 - 5⟩ := by
      rfl
    show (((enqueue_all 64 [10, 100, 10, 50]).execute_all 64).2.1.map
      (fun x => x.function_.label)) = [1, 3, 0, 2]
    rw [hq0]
    rw [execute_all_inert_step 64
      (q := (⟨[⟨10, 2 ^ 64 - 2, Callback.mk 0 [] false⟩,
        ⟨100, 2 ^ 64 - 3, Callback.mk 1 [] false⟩,
        ⟨10, 2 ^ 64 - 4, Callback.mk 2 [] false⟩,
        ⟨50, 2 ^ 64 - 5, Callback.mk 3 [] false⟩], 2 ^ 64 - 5⟩ :
          execution_priority_queue))
      (show extract_max [⟨10, 2 ^ 64 - 2, Callback.mk 0 [] false⟩,
        ⟨100, 2 ^ 64 - 3, Callback.mk 1 [] false⟩,
        ⟨10, 2 ^ 64 - 4, Callback.mk 2 [] false⟩,
        ⟨50, 2 ^ 64 - 5, Callback.mk 3 [] false⟩] =
        some (⟨100, 2 ^ 64 - 3, Callback.mk 1 [] false⟩,
          [⟨10, 2 ^ 64 - 2, Callback.mk 0 [] false⟩,
           ⟨10, 2 ^ 64 - 4, Callback.mk 2 [] false⟩,
           ⟨50, 2 ^ 64 - 5, Callback.mk 3 [] false⟩]) from rfl) rfl rfl]
    rw [execute_all_inert_step 64
      (q := (⟨[⟨10, 2 ^ 64 - 2, Callback.mk 0 [] false⟩,
        ⟨10, 2 ^ 64 - 4, Callback.mk 2 [] false⟩,
        ⟨50, 2 ^ 64 - 5, Callback.mk 3 [] false⟩], 2 ^ 64 - 5⟩ :
          execution_priority_queue))
      (show extract_max [⟨10, 2 ^ 64 - 2, Callback.mk 0 [] false⟩,
        ⟨10, 2 ^ 64 - 4, Callback.mk 2 [] false⟩,
        ⟨50, 2 ^ 64 - 5, Callback.mk 3 [] false⟩] =
        some (⟨50, 2 ^ 64 - 5, Callback.mk 3 [] false⟩,
          [⟨10, 2 ^ 64 - 2, Callback.mk 0 [] false⟩,
           ⟨10, 2 ^ 64 - 4, Callback.mk 2 [] false⟩]) from rfl) rfl rfl]
    rw [execute_all_inert_step 64
      (q := (⟨[⟨10, 2 ^ 64 - 2, Callback.mk 0 [] false⟩,
        ⟨10, 2 ^ 64 - 4, Callback.mk 2 [] false⟩], 2 ^ 64 - 5⟩ :
          execution_priority_queue))
      (show extract_max [⟨10, 2 ^ 64 - 2, Callback.mk 0 [] false⟩,
        ⟨10, 2 ^ 64 - 4, Callback.mk 2 [] false⟩] =
        some (⟨10, 2 ^ 64 - 2, Callback.mk 0 [] false⟩,
          [⟨10, 2 ^ 64 - 4, Callback.mk 2 [] false⟩]) from rfl) rfl rfl]
    rw [execute_all_inert_step 64
      (q := (⟨[⟨10, 2 ^ 64 - 4, Callback.mk 2 [] false⟩], 2 ^ 64 - 5⟩ :
          execution_priority_queue))
      (show extract_max [⟨10, 2 ^ 64 - 4, Callback.mk 2 [] false⟩] =
        some (⟨10, 2 ^ 64 - 4, Callback.mk 2 [] false⟩, []) from rfl) rfl rfl]
    rw [execute_all_empty 64
      (q := (⟨[], 2 ^ 64 - 5⟩ : execution_priority_queue)) rfl]
    rfl

/-- Witness for claim C1, at the specification's example input: four enqueues
fit comfortably below `2^64`, and the drain order is `B, D, A, C`
(labels `1, 3, 0, 2`). -/
theorem claim_C1_priority_fifo_order_witness :
    (([10, 100, 10, 50] : List Int).length < 2 ^ 64) ∧
    (drain_trace 64 [10, 100, 10, 50]).map (fun x => x.function_.label) =
      [1, 3, 0, 2] :=
  ⟨by norm_num, (claim_C1_priority_fifo_order 64 [10, 100, 10, 50]
    (by norm_num)).2.2.2.2.2⟩
